import Mathlib

/-!
Verification development for the mdbook-man renderer core (src/lib.rs).

The embedding models:
* `String.from_utf8_lossy` (Rust std) as `fromUtf8Lossy` over byte lists,
  following the WHATWG "replacement of maximal subparts" policy that Rust
  implements;
* the comrak AST slice the converter inspects (`NodeValue`, `AstNode`);
* the roffman output-node constructors the converter uses (`RoffNode`);
* the converter state (`Parser`), the visit callback (`visit`, the closure
  at src/lib.rs:95-162), the traversal (`iter_nodes`, src/lib.rs:10-18),
  `markdown_to_roff` (on an already-parsed tree; parsing is the external
  comrak collaborator), and the two assemblers `mdbook_to_roff` and
  `mdbook_to_roff_chapters`.
-/

namespace MdbookMan

/-- The replacement character U+FFFD emitted by lossy UTF-8 decoding. -/
def replChar : Char := Char.ofNat 0xFFFD

/-- Decoder state for lossy UTF-8 decoding: either at a sequence start, or
expecting `k` more continuation bytes, with the accumulated code-point bits
`acc`, where the next byte must lie in `[lo, hi]` (the first continuation
byte's admissible range depends on the leading byte, per RFC 3629). -/
inductive Ustate where
  | start : Ustate
  | need (k : Nat) (acc : Nat) (lo hi : Nat) : Ustate

/-- Step of the lossy decoder on byte `b` taken from the start state:
returns the emitted characters and the successor state. Leading-byte
ranges follow the UTF-8 well-formedness table (no overlong forms, no
surrogates, max U+10FFFF), as enforced by Rust's `from_utf8_lossy`. -/
def stepStart (b : Nat) : List Char × Ustate :=
  if b < 0x80 then ([Char.ofNat b], .start)
  else if 0xC2 ≤ b ∧ b ≤ 0xDF then ([], .need 1 (b % 0x20) 0x80 0xBF)
  else if b = 0xE0 then ([], .need 2 (b % 0x10) 0xA0 0xBF)
  else if 0xE1 ≤ b ∧ b ≤ 0xEC then ([], .need 2 (b % 0x10) 0x80 0xBF)
  else if b = 0xED then ([], .need 2 (b % 0x10) 0x80 0x9F)
  else if 0xEE ≤ b ∧ b ≤ 0xEF then ([], .need 2 (b % 0x10) 0x80 0xBF)
  else if b = 0xF0 then ([], .need 3 (b % 0x8) 0x90 0xBF)
  else if 0xF1 ≤ b ∧ b ≤ 0xF3 then ([], .need 3 (b % 0x8) 0x80 0xBF)
  else if b = 0xF4 then ([], .need 3 (b % 0x8) 0x80 0x8F)
  else ([replChar], .start)

/-- Step of the lossy decoder on byte `b` in state `st`. A byte that fails
a continuation check yields one replacement character for the invalid
maximal subpart seen so far and is then reprocessed as a sequence start,
exactly as Rust's `from_utf8_lossy` does. -/
def stepLossy (st : Ustate) (b : Nat) : List Char × Ustate :=
  match st with
  | .start => stepStart b
  | .need k acc lo hi =>
    if lo ≤ b ∧ b ≤ hi then
      let acc' := acc * 64 + b % 64
      if k = 1 then ([Char.ofNat acc'], .start)
      else ([], .need (k - 1) acc' 0x80 0xBF)
    else
      let s := stepStart b
      (replChar :: s.1, s.2)

/-- Run the lossy decoder over a byte list from state `st`; a truncated
sequence at end of input yields one replacement character. -/
def lossyGo (st : Ustate) : List Nat → List Char
  | [] =>
    match st with
    | .start => []
    | .need _ _ _ _ => [replChar]
  | b :: rest =>
    let s := stepLossy st b
    s.1 ++ lossyGo s.2 rest

/-- Model of Rust's `String::from_utf8_lossy`: decode a byte list to a
string, replacing each maximal invalid subpart with U+FFFD. -/
def fromUtf8Lossy (bs : List Nat) : String :=
  String.mk (lossyGo .start bs)

/-- Model of Rust's `str::repeat`: the string repeated `n` times
(used for the `"=".repeat(text.len() + 2)` heading underline). -/
def strRepeat (s : String) (n : Nat) : String :=
  String.join (List.replicate n s)

/-- The comrak node kinds the converter distinguishes, with the payloads it
reads (byte lists, as comrak stores `Vec<u8>`). Payloads the converter
never touches (heading level aside, which it also ignores) are elided;
`other` stands for every `NodeValue` variant outside the `From` impl's
match (src/lib.rs:64-83), including the document root. -/
inductive NodeValue where
  | document : NodeValue
  | heading (level : Nat) : NodeValue
  | paragraph : NodeValue
  | codeBlock (info : List Nat) (literal : List Nat) : NodeValue
  | code (literal : List Nat) : NodeValue
  | strong : NodeValue
  | emph : NodeValue
  | link (url : List Nat) (title : List Nat) : NodeValue
  | image (url : List Nat) (title : List Nat) : NodeValue
  | softBreak : NodeValue
  | text (literal : List Nat) : NodeValue
  | list : NodeValue
  | item : NodeValue
  | lineBreak : NodeValue
  | other : NodeValue

/-- A parsed document node: a value and its ordered children
(comrak `AstNode`). -/
inductive AstNode where
  | mk (value : NodeValue) (children : List AstNode) : AstNode

/-- The `MarkdownNode` enum of src/lib.rs:44-62. -/
inductive MarkdownNode where
  | Heading | Paragraph | Code | CodeBlock | Strong | Emphasis | Link
  | SoftBreak | Text | List | ListItem | LineBreak | Image | Empty
  deriving DecidableEq

/-- The `From<&NodeValue> for MarkdownNode` impl (src/lib.rs:64-83). -/
def MarkdownNode.fromValue : NodeValue → MarkdownNode
  | .heading _ => .Heading
  | .paragraph => .Paragraph
  | .codeBlock _ _ => .CodeBlock
  | .code _ => .Code
  | .strong => .Strong
  | .emph => .Emphasis
  | .link _ _ => .Link
  | .softBreak => .SoftBreak
  | .text _ => .Text
  | .list => .List
  | .item => .ListItem
  | .lineBreak => .LineBreak
  | .image _ _ => .Image
  | _ => .Empty

/-- The roffman output nodes the converter builds. Styled text keeps only
the constructors the converter uses: `text` is `into_roff` on a string,
`bold`/`italic` are `.roff().bold()` / `.roff().italic()`, `url` is
`RoffNode::url(display, target)`, `paragraph`, `example`,
`indentedParagraph` (content, indent depth, optional caption) and `nested`
mirror the corresponding `RoffNode` constructors. -/
inductive RoffNode where
  | text (s : String) : RoffNode
  | bold (s : String) : RoffNode
  | italic (s : String) : RoffNode
  | linebreak : RoffNode
  | url (display : String) (target : String) : RoffNode
  | paragraph (content : List String) : RoffNode
  | example (content : List String) : RoffNode
  | indentedParagraph (content : List RoffNode) (indent : Option Nat)
      (title : Option RoffNode) : RoffNode
  | nested (content : List RoffNode) : RoffNode

/-- The `Parser` state (src/lib.rs:20-24): emitted output nodes plus the
single-slot "last node" memory. -/
structure Parser where
  nodes : List RoffNode
  last_md_node : MarkdownNode

/-- `Parser::default()`: empty output, `MarkdownNode::Empty`
(the `Default` impls at src/lib.rs:20 and 85-89). -/
def Parser.default : Parser := ⟨[], .Empty⟩

/-- `Parser::update_last_node` (src/lib.rs:27-29). -/
def Parser.update_last_node (p : Parser) (n : MarkdownNode) : Parser :=
  { p with last_md_node := n }

/-- `Parser::last_node` (src/lib.rs:31-33). -/
def Parser.last_node (p : Parser) : MarkdownNode := p.last_md_node

/-- `Parser::finalize` (src/lib.rs:35-37). -/
def Parser.finalize (p : Parser) : List RoffNode := p.nodes

/-- `Parser::append_roff` (src/lib.rs:39-41): push one output node. -/
def Parser.append_roff (p : Parser) (r : RoffNode) : Parser :=
  { p with nodes := p.nodes ++ [r] }

/-- The visit callback: the closure passed to `iter_nodes` in
`markdown_to_roff` (src/lib.rs:95-162). Every arm ends with
`update_last_node` except the `Text`-after-`Heading` arm, which returns
early (src/lib.rs:134), leaving the last-node memory untouched. -/
def visit (value : NodeValue) (p : Parser) : Parser :=
  match value with
  | .link url title | .image url title =>
    ((p.append_roff (.url (fromUtf8Lossy title) (fromUtf8Lossy url))).update_last_node
      (MarkdownNode.fromValue value))
  | .code lit =>
    let t := fromUtf8Lossy lit
    ((((p.append_roff (.text "`")).append_roff (.italic t)).append_roff
        (.text "`")).update_last_node (MarkdownNode.fromValue value))
  | .codeBlock info lit =>
    let t := fromUtf8Lossy lit
    let i := fromUtf8Lossy info
    let title := if !i.isEmpty then some (RoffNode.bold i) else none
    ((p.append_roff
        (.nested [.indentedParagraph [.linebreak, .example [t]] (some 2) title])).update_last_node
      (MarkdownNode.fromValue value))
  | .text lit =>
    let t := fromUtf8Lossy lit
    match p.last_node with
    | .Heading =>
      (((((p.append_roff .linebreak).append_roff .linebreak).append_roff
          (.bold t)).append_roff .linebreak).append_roff
        (.text (strRepeat "=" (t.utf8ByteSize + 2)))).append_roff .linebreak
    | .Paragraph =>
      (p.append_roff (.paragraph [t])).update_last_node (MarkdownNode.fromValue value)
    | .Emphasis =>
      (p.append_roff (.italic t)).update_last_node (MarkdownNode.fromValue value)
    | .Strong =>
      (p.append_roff (.bold t)).update_last_node (MarkdownNode.fromValue value)
    | .ListItem =>
      (((p.append_roff (.text t)).append_roff .linebreak).update_last_node
        (MarkdownNode.fromValue value))
    | _ =>
      (p.append_roff (.text t)).update_last_node (MarkdownNode.fromValue value)
  | .lineBreak =>
    (p.append_roff .linebreak).update_last_node (MarkdownNode.fromValue value)
  | _ => p.update_last_node (MarkdownNode.fromValue value)

mutual

/-- `iter_nodes` (src/lib.rs:10-18): call the visit callback on the node,
then recurse into every child in order. -/
def iter_nodes (node : AstNode) (out : Parser) : Parser :=
  match node with
  | .mk v cs => iter_list cs (visit v out)

/-- The `for c in node.children()` loop body of `iter_nodes`. -/
def iter_list (nodes : List AstNode) (out : Parser) : Parser :=
  match nodes with
  | [] => out
  | c :: rest => iter_list rest (iter_nodes c out)

end

/-- `markdown_to_roff` (src/lib.rs:91-164) applied to the already-parsed
document tree (the `parse_document` call is the external comrak parser):
traverse from a fresh `Parser::default()` and finalize. -/
def markdown_to_roff (root : AstNode) : List RoffNode :=
  (iter_nodes root Parser.default).finalize

/-- A book item (mdbook `BookItem`): a chapter (name plus content, here the
already-parsed tree of its markdown), a separator, or a part title. -/
inductive BookItem where
  | chapter (name : String) (content : AstNode) : BookItem
  | separator : BookItem
  | partTitle (title : String) : BookItem

/-- The slice of the mdbook `RenderContext` the assemblers read: the
optional book title and the flattened, ordered book items. -/
structure RenderContext where
  title : Option String
  items : List BookItem

/-- A roffman `Roff` document: title, man-section number, and ordered
named sections. -/
structure Roff where
  title : String
  section_number : Nat
  sections : List (String × List RoffNode)

/-- `Roff::new(title, SectionNumber::Miscellaneous)`: fresh document,
man section 7, no sections. -/
def Roff.new (title : String) : Roff := ⟨title, 7, []⟩

/-- `Roff::section(name, content)`: append one named section. -/
def Roff.section (r : Roff) (name : String) (content : List RoffNode) : Roff :=
  { r with sections := r.sections ++ [(name, content)] }

/-- The loop body of `mdbook_to_roff` (src/lib.rs:171-176): a chapter item
appends one section named after the chapter, every other item leaves the
page unchanged. -/
def singleStep (page : Roff) (item : BookItem) : Roff :=
  match item with
  | .chapter name content => page.section name (markdown_to_roff content)
  | _ => page

/-- `mdbook_to_roff` (src/lib.rs:166-179): one document titled with the
book title (empty if unset); the item loop is `singleStep`. -/
def mdbook_to_roff (ctx : RenderContext) : Roff :=
  let title := ctx.title.getD ""
  let page := Roff.new title
  ctx.items.foldl singleStep page

/-- The loop body of `mdbook_to_roff_chapters` (src/lib.rs:184-191): a
chapter item pushes a fresh single-section document, every other item
pushes nothing. -/
def splitStep (pages : List Roff) (item : BookItem) : List Roff :=
  match item with
  | .chapter name content =>
    pages ++ [(Roff.new name).section name (markdown_to_roff content)]
  | _ => pages

/-- `mdbook_to_roff_chapters` (src/lib.rs:181-194): one standalone
single-section document per chapter item, in book order. -/
def mdbook_to_roff_chapters (ctx : RenderContext) : List Roff :=
  ctx.items.foldl splitStep []

/-! Specification-side definitions, to compare the source functions
against. -/

mutual

/-- The pre-order listing of a tree: the root's value first, then the
pre-order listing of each child subtree, in source order. It contains the
value of every node of the tree exactly once. -/
def preorder (t : AstNode) : List NodeValue :=
  match t with
  | .mk v cs => v :: preorderList cs

/-- Pre-order listing of a forest, in order. -/
def preorderList (ts : List AstNode) : List NodeValue :=
  match ts with
  | [] => []
  | c :: rest => preorder c ++ preorderList rest

end

mutual

/-- Number of nodes of a tree. -/
def countNodes (t : AstNode) : Nat :=
  match t with
  | .mk _ cs => 1 + countList cs

/-- Number of nodes of a forest. -/
def countList (ts : List AstNode) : Nat :=
  match ts with
  | [] => 0
  | c :: rest => countNodes c + countList rest

end

/-- The six output nodes of the heading decoration for decoded text `t`
(src/lib.rs:127-135); the `=` underline is `text.len() + 2` bytes long. -/
def headingDeco (t : String) : List RoffNode :=
  [.linebreak, .linebreak, .bold t, .linebreak,
    .text (strRepeat "=" (t.utf8ByteSize + 2)), .linebreak]

/-- The section one book item contributes in single-document mode:
chapters contribute their converted content under their name, other items
nothing. -/
def chapSec : BookItem → Option (String × List RoffNode)
  | .chapter n c => some (n, markdown_to_roff c)
  | _ => none

/-- The standalone document one book item contributes in split mode. -/
def chapDoc : BookItem → Option Roff
  | .chapter n c => some ((Roff.new n).section n (markdown_to_roff c))
  | _ => none

/-! Helper lemmas. -/

/-- One visit step only appends to the output and its effect is a function
of the node and the last-node memory alone. -/
theorem visit_frame (v : NodeValue) (p : Parser) :
    visit v p = ⟨p.nodes ++ (visit v ⟨[], p.last_md_node⟩).nodes,
      (visit v ⟨[], p.last_md_node⟩).last_md_node⟩ := by
  obtain ⟨ns, l⟩ := p
  cases v <;> cases l <;>
    simp [visit, Parser.append_roff, Parser.update_last_node, Parser.last_node,
      MarkdownNode.fromValue]

mutual

/-- The traversal only appends to the output; the appended suffix and the
final memory depend only on the tree and the initial memory. -/
theorem iter_nodes_frame (t : AstNode) (p : Parser) :
    iter_nodes t p = ⟨p.nodes ++ (iter_nodes t ⟨[], p.last_md_node⟩).nodes,
      (iter_nodes t ⟨[], p.last_md_node⟩).last_md_node⟩ := by
  match t with
  | .mk v cs =>
    simp only [iter_nodes]
    rw [visit_frame v p]
    rw [iter_list_frame cs ⟨p.nodes ++ (visit v ⟨[], p.last_md_node⟩).nodes,
      (visit v ⟨[], p.last_md_node⟩).last_md_node⟩]
    rw [iter_list_frame cs (visit v ⟨[], p.last_md_node⟩)]
    simp [List.append_assoc]

/-- Forest version of `iter_nodes_frame`. -/
theorem iter_list_frame (ts : List AstNode) (p : Parser) :
    iter_list ts p = ⟨p.nodes ++ (iter_list ts ⟨[], p.last_md_node⟩).nodes,
      (iter_list ts ⟨[], p.last_md_node⟩).last_md_node⟩ := by
  match ts with
  | [] => simp [iter_list]
  | c :: rest =>
    simp only [iter_list]
    rw [iter_nodes_frame c p]
    rw [iter_list_frame rest ⟨p.nodes ++ (iter_nodes c ⟨[], p.last_md_node⟩).nodes,
      (iter_nodes c ⟨[], p.last_md_node⟩).last_md_node⟩]
    rw [iter_list_frame rest (iter_nodes c ⟨[], p.last_md_node⟩)]
    simp [List.append_assoc]

end

mutual

/-- The traversal is the left fold of the visit callback over the
pre-order listing of the tree. -/
theorem iter_nodes_eq_foldl (t : AstNode) (p : Parser) :
    iter_nodes t p = (preorder t).foldl (fun q v => visit v q) p := by
  match t with
  | .mk v cs =>
    simp only [iter_nodes, preorder, List.foldl_cons]
    exact iter_list_eq_foldl cs (visit v p)

/-- Forest version of `iter_nodes_eq_foldl`. -/
theorem iter_list_eq_foldl (ts : List AstNode) (p : Parser) :
    iter_list ts p = (preorderList ts).foldl (fun q v => visit v q) p := by
  match ts with
  | [] => simp [iter_list, preorderList]
  | c :: rest =>
    simp only [iter_list, preorderList, List.foldl_append]
    rw [← iter_nodes_eq_foldl c p]
    exact iter_list_eq_foldl rest (iter_nodes c p)

end

mutual

/-- The pre-order listing has one entry per node of the tree. -/
theorem preorder_length (t : AstNode) : (preorder t).length = countNodes t := by
  match t with
  | .mk v cs =>
    simp only [preorder, countNodes, List.length_cons, preorderList_length cs]
    omega

/-- Forest version of `preorder_length`. -/
theorem preorderList_length (ts : List AstNode) :
    (preorderList ts).length = countList ts := by
  match ts with
  | [] => simp [preorderList, countList]
  | c :: rest =>
    simp only [preorderList, countList, List.length_append,
      preorder_length c, preorderList_length rest]

end

/-- Mid-sequence decoder states always contribute at least one character
(a replacement character if nothing else). -/
theorem lossyGo_need_ne_nil (rest : List Nat) :
    ∀ k acc lo hi, lossyGo (.need k acc lo hi) rest ≠ [] := by
  induction rest with
  | nil => intro k acc lo hi; simp [lossyGo]
  | cons b r ih =>
    intro k acc lo hi
    simp only [lossyGo, stepLossy]
    split
    · split <;> simp [ih]
    · simp

/-- A nonempty byte list decodes to at least one character. -/
theorem lossyGo_start_cons_ne_nil (b : Nat) (rest : List Nat) :
    lossyGo .start (b :: rest) ≠ [] := by
  simp only [lossyGo, stepLossy, stepStart]
  split_ifs <;> simp [lossyGo_need_ne_nil]

/-- Lossy decoding gives the empty string exactly on empty input. -/
theorem fromUtf8Lossy_eq_empty_iff (bs : List Nat) :
    fromUtf8Lossy bs = "" ↔ bs = [] := by
  cases bs with
  | nil => simp [fromUtf8Lossy, lossyGo]
  | cons b rest =>
    simp only [fromUtf8Lossy]
    constructor
    · intro h
      exact absurd (by simpa [String.ext_iff] using h)
        (lossyGo_start_cons_ne_nil b rest)
    · intro h; cases h

/-- Single-document fold: each chapter item appends its section. -/
theorem singleStep_foldl (items : List BookItem) (page : Roff) :
    items.foldl singleStep page =
      { page with sections := page.sections ++ items.filterMap chapSec } := by
  induction items generalizing page with
  | nil => simp
  | cons item rest ih =>
    cases item <;>
      simp [List.foldl_cons, List.filterMap_cons, singleStep, chapSec, ih,
        Roff.section, List.append_assoc]

/-- Split fold: each chapter item appends its standalone document. -/
theorem splitStep_foldl (items : List BookItem) (pages : List Roff) :
    items.foldl splitStep pages = pages ++ items.filterMap chapDoc := by
  induction items generalizing pages with
  | nil => simp
  | cons item rest ih =>
    cases item <;>
      simp [List.foldl_cons, List.filterMap_cons, splitStep, chapDoc, ih,
        List.append_assoc]

/-! Claim theorems. -/

/-- C1: when a Text node is visited while the last-node memory is Heading,
the converter emits exactly six output nodes in order: line break, line
break, the text rendered bold, line break, a literal line of `=`
characters of length `text.len() + 2` (the decoded text's UTF-8 byte
length, as `str::len` counts bytes), and a line break; in particular a
single Heading containing one Text child "Title" yields that sequence
with a 7-character `=` line. -/
theorem heading_text_decoration :
    (∀ (lit : List Nat) (p : Parser), p.last_md_node = MarkdownNode.Heading →
      visit (NodeValue.text lit) p =
        ⟨p.nodes ++
          [RoffNode.linebreak, RoffNode.linebreak,
            RoffNode.bold (fromUtf8Lossy lit), RoffNode.linebreak,
            RoffNode.text (strRepeat "=" ((fromUtf8Lossy lit).utf8ByteSize + 2)),
            RoffNode.linebreak],
          p.last_md_node⟩) ∧
    markdown_to_roff (AstNode.mk .document
        [AstNode.mk (.heading 1) [AstNode.mk (.text [84, 105, 116, 108, 101]) []]]) =
      [RoffNode.linebreak, RoffNode.linebreak, RoffNode.bold "Title",
        RoffNode.linebreak, RoffNode.text "=======", RoffNode.linebreak] := by
  constructor
  · intro lit p h
    obtain ⟨ns, l⟩ := p
    replace h : l = MarkdownNode.Heading := h
    subst h
    simp [visit, Parser.append_roff, Parser.last_node]
  · rfl

/-- C1 witness: the heading decoration at the concrete Text "Title" under
a Heading, through `heading_text_decoration`. -/
theorem heading_text_decoration_witness :
    (Parser.mk [] MarkdownNode.Heading).last_md_node = MarkdownNode.Heading ∧
    visit (NodeValue.text [84, 105, 116, 108, 101]) (Parser.mk [] MarkdownNode.Heading) =
      Parser.mk
        [RoffNode.linebreak, RoffNode.linebreak, RoffNode.bold "Title",
          RoffNode.linebreak, RoffNode.text "=======", RoffNode.linebreak]
        MarkdownNode.Heading :=
  ⟨rfl,
    (heading_text_decoration.1 [84, 105, 116, 108, 101]
        (Parser.mk [] MarkdownNode.Heading) rfl).trans (by rfl)⟩

/-- C2: the Text-after-Heading arm returns without updating the last-node
memory, so it stays Heading, and several adjacent sibling Text nodes under
one Heading each independently receive the full six-node decoration. -/
theorem heading_last_node_preserved :
    (∀ (lit : List Nat) (p : Parser), p.last_md_node = MarkdownNode.Heading →
      (visit (NodeValue.text lit) p).last_md_node = MarkdownNode.Heading) ∧
    ∀ a b : List Nat,
      markdown_to_roff (AstNode.mk .document
          [AstNode.mk (.heading 1)
            [AstNode.mk (.text a) [], AstNode.mk (.text b) []]]) =
        headingDeco (fromUtf8Lossy a) ++ headingDeco (fromUtf8Lossy b) := by
  constructor
  · intro lit p h
    obtain ⟨ns, l⟩ := p
    replace h : l = MarkdownNode.Heading := h
    subst h
    simp [visit, Parser.append_roff, Parser.last_node]
  · intro a b
    simp [markdown_to_roff, iter_nodes, iter_list, visit, Parser.default,
      Parser.finalize, Parser.append_roff, Parser.update_last_node,
      Parser.last_node, MarkdownNode.fromValue, headingDeco]

/-- C2 witness: the last-node memory after decorating one concrete Text
node under a Heading, through `heading_last_node_preserved`. -/
theorem heading_last_node_preserved_witness :
    (Parser.mk [] MarkdownNode.Heading).last_md_node = MarkdownNode.Heading ∧
    (visit (NodeValue.text [88]) (Parser.mk [] MarkdownNode.Heading)).last_md_node =
      MarkdownNode.Heading :=
  ⟨rfl, heading_last_node_preserved.1 [88] (Parser.mk [] MarkdownNode.Heading) rfl⟩

/-- C3: every Link or Image node emits one hyperlink output node, display
the lossily decoded title field, target the url field; an empty title
decodes to the empty display string; a Link with url "http://x" and title
"X" yields exactly one hyperlink node with display "X" and target
"http://x". -/
theorem link_image_hyperlink_emission :
    (∀ (url title : List Nat) (p : Parser),
      visit (NodeValue.link url title) p =
        ⟨p.nodes ++ [RoffNode.url (fromUtf8Lossy title) (fromUtf8Lossy url)],
          MarkdownNode.Link⟩ ∧
      visit (NodeValue.image url title) p =
        ⟨p.nodes ++ [RoffNode.url (fromUtf8Lossy title) (fromUtf8Lossy url)],
          MarkdownNode.Image⟩ ∧
      fromUtf8Lossy [] = "") ∧
    markdown_to_roff
        (AstNode.mk (.link [104, 116, 116, 112, 58, 47, 47, 120] [88]) []) =
      [RoffNode.url "X" "http://x"] := by
  refine ⟨fun url title p => ⟨?_, ?_, rfl⟩, rfl⟩ <;>
    simp [visit, Parser.append_roff, Parser.update_last_node, MarkdownNode.fromValue]

/-- C4: every CodeBlock node emits one grouping node holding a depth-2
indented paragraph of a line break followed by a literal example block
with the code text; the indent wrapper carries a bold caption equal to the
info string exactly when the info string is non-empty (equivalently, when
the info byte list is non-empty). -/
theorem codeblock_emission :
    (∀ (info lit : List Nat) (p : Parser),
      visit (NodeValue.codeBlock info lit) p =
        ⟨p.nodes ++ [RoffNode.nested [RoffNode.indentedParagraph
            [RoffNode.linebreak, RoffNode.example [fromUtf8Lossy lit]] (some 2)
            (if !(fromUtf8Lossy info).isEmpty then
              some (RoffNode.bold (fromUtf8Lossy info))
             else none)]],
          MarkdownNode.CodeBlock⟩ ∧
      ((fromUtf8Lossy info).isEmpty = true ↔ info = [])) ∧
    markdown_to_roff (AstNode.mk
        (.codeBlock [114, 117, 115, 116]
          [102, 110, 32, 109, 97, 105, 110, 40, 41, 32, 123, 125]) []) =
      [RoffNode.nested [RoffNode.indentedParagraph
        [RoffNode.linebreak, RoffNode.example ["fn main() \x7b\x7d"]] (some 2)
        (some (RoffNode.bold "rust"))]] := by
  refine ⟨fun info lit p => ⟨?_, ?_⟩, rfl⟩
  · simp [visit, Parser.append_roff, Parser.update_last_node, MarkdownNode.fromValue]
  · constructor
    · intro h
      exact (fromUtf8Lossy_eq_empty_iff info).mp ((String.isEmpty_iff _).mp h)
    · intro h
      subst h
      rfl

/-- C5: the traversal visits the root first and then each child subtree in
source order, every node exactly once: it equals the left fold of the
visit callback over the pre-order listing of the tree, which has exactly
one entry per node. -/
theorem traversal_preorder_complete (t : AstNode) (p : Parser) :
    iter_nodes t p = (preorder t).foldl (fun q v => visit v q) p ∧
    (preorder t).length = countNodes t :=
  ⟨iter_nodes_eq_foldl t p, preorder_length t⟩

/-- C6: single-document mode builds one document whose title is the book
title (empty if unset) and whose sections are exactly one section per
chapter item, named after the chapter, in book order; other items
contribute nothing. -/
theorem single_document_assembly (ctx : RenderContext) :
    (mdbook_to_roff ctx).title = ctx.title.getD "" ∧
    (mdbook_to_roff ctx).sections = ctx.items.filterMap chapSec := by
  simp only [mdbook_to_roff]
  rw [singleStep_foldl]
  exact ⟨rfl, by simp [Roff.new]⟩

/-- C7: split mode produces exactly the standalone documents of the
chapter items in book order; each such document is titled with the chapter
name and holds exactly one section bearing that same name. -/
theorem split_mode_assembly (ctx : RenderContext) :
    mdbook_to_roff_chapters ctx = ctx.items.filterMap chapDoc ∧
    ∀ r ∈ mdbook_to_roff_chapters ctx, ∃ content, r.sections = [(r.title, content)] := by
  have h : mdbook_to_roff_chapters ctx = ctx.items.filterMap chapDoc := by
    simp only [mdbook_to_roff_chapters]
    rw [splitStep_foldl]
    simp
  refine ⟨h, ?_⟩
  intro r hr
  rw [h] at hr
  rcases List.mem_filterMap.mp hr with ⟨item, _, hitem⟩
  cases item with
  | chapter n c =>
    simp only [chapDoc, Option.some.injEq] at hitem
    subst hitem
    exact ⟨markdown_to_roff c, by simp [Roff.section, Roff.new]⟩
  | separator => simp [chapDoc] at hitem
  | partTitle t => simp [chapDoc] at hitem

/-- C7 witness: split mode on a one-chapter book, through
`split_mode_assembly`. -/
theorem split_mode_assembly_witness :
    ∃ content,
      (Roff.mk "ch" 7 [("ch", [])]).sections =
        [((Roff.mk "ch" 7 [("ch", [])]).title, content)] :=
  (split_mode_assembly
      ⟨some "B", [BookItem.chapter "ch" (AstNode.mk .document [])]⟩).2
    (Roff.mk "ch" 7 [("ch", [])]) (List.mem_singleton.mpr rfl)

/-- C8: conversion of a chapter tree always succeeds and malformed bytes
in text, code and link payloads are decoded leniently: a nonempty payload
always decodes (to a nonempty string, invalid subparts replaced), every
tree converts to some output sequence, and a tree with invalid bytes in a
text, a link and a code block converts without error, the invalid
sequences replaced by U+FFFD. -/
theorem conversion_total_lossy :
    (∀ bs : List Nat, bs ≠ [] → fromUtf8Lossy bs ≠ "") ∧
    (∀ t : AstNode, ∃ out : List RoffNode, markdown_to_roff t = out) ∧
    markdown_to_roff (AstNode.mk .document
        [AstNode.mk .paragraph [AstNode.mk (.text [255, 97]) []],
          AstNode.mk (.link [195] [128]) [],
          AstNode.mk (.codeBlock [] [226, 130]) []]) =
      [RoffNode.paragraph [String.mk [replChar, 'a']],
        RoffNode.url (String.mk [replChar]) (String.mk [replChar]),
        RoffNode.nested [RoffNode.indentedParagraph
          [RoffNode.linebreak, RoffNode.example [String.mk [replChar]]]
          (some 2) none]] := by
  refine ⟨?_, fun t => ⟨_, rfl⟩, rfl⟩
  intro bs h hc
  exact h ((fromUtf8Lossy_eq_empty_iff bs).mp hc)

/-- C8 witness: lenient decoding of the concrete invalid byte 0xFF,
through `conversion_total_lossy`. -/
theorem conversion_total_lossy_witness :
    ([255] : List Nat) ≠ [] ∧ fromUtf8Lossy [255] ≠ "" :=
  ⟨by decide, conversion_total_lossy.1 [255] (by decide)⟩

/-- C9: conversion is a deterministic function of the input tree — two
runs on the same tree give structurally identical output (definitional in
this pure embedding) — and, substantively, a traversal only appends to the
already-emitted output, its emitted suffix a function of the tree and the
initial last-node memory alone. -/
theorem conversion_deterministic (t : AstNode) :
    markdown_to_roff t = markdown_to_roff t ∧
    ∀ p : Parser,
      (iter_nodes t p).nodes = p.nodes ++ (iter_nodes t ⟨[], p.last_md_node⟩).nodes :=
  ⟨rfl, fun p => by rw [iter_nodes_frame t p]⟩

/-- C10: a Link node's Text child is emitted in addition to the hyperlink:
the visit of the Link sets the last-node memory to Link, so the child text
falls into the default arm and is appended as a plain unstyled text node
right after the hyperlink (never wrapped in a paragraph, whatever the
memory was before the Link — e.g. Paragraph). -/
theorem link_text_child_plain (url title lit : List Nat) (p : Parser) :
    (visit (NodeValue.link url title) p).last_md_node = MarkdownNode.Link ∧
    iter_nodes (AstNode.mk (.link url title) [AstNode.mk (.text lit) []]) p =
      ⟨p.nodes ++ [RoffNode.url (fromUtf8Lossy title) (fromUtf8Lossy url),
        RoffNode.text (fromUtf8Lossy lit)], MarkdownNode.Text⟩ := by
  constructor
  · simp [visit, Parser.append_roff, Parser.update_last_node, MarkdownNode.fromValue]
  · obtain ⟨ns, l⟩ := p
    simp [iter_nodes, iter_list, visit, Parser.append_roff,
      Parser.update_last_node, Parser.last_node, MarkdownNode.fromValue]

end MdbookMan
